import Mathlib

/-!
Verification of the genetic feature-selection engine in
`genetic_selection_mod/gscv.py` (sklearn-genetic-mod).

The Python source is shallowly embedded below: chromosomes are `List Bool`
(the source stores 0/1 integers), scores are exact rationals, the mutable
estimator and the score cache are threaded explicitly as association lists
(Python mutates them in place; the value returned here is the state of the
shared object after the call), and the external cross-validation scoring
collaborator together with `np.std` are taken as oracle parameters.
-/

/-- Number of set bits of a feature segment (`np.sum(individual)` on the
0/1 gene list). -/
def countOnes (l : List Bool) : Nat := l.count true

/-- `int(''.join(str(b) for b in bin_str), 2)`: the unsigned value of a bit
string read most-significant-bit first. -/
def binToNat (bits : List Bool) : Nat :=
  bits.foldl (fun acc b => 2 * acc + (if b then 1 else 0)) 0

/-- Python `int(round(p, 0))`: round half to even (banker's rounding). -/
def pyRound (q : ℚ) : ℤ :=
  let f := ⌊q⌋
  let r := q - (f : ℚ)
  if r < 1 / 2 then f
  else if 1 / 2 < r then f + 1
  else if f % 2 = 0 then f else f + 1

/-- The state of the (single, shared) estimator object: its dynamically
assigned hyperparameter attributes. -/
abbrev EstimatorState := List (String × ℚ)

/-- Python attribute read. -/
def getAttr : EstimatorState → String → Option ℚ
  | [], _ => none
  | (k', v') :: rest, k => if k' = k then some v' else getAttr rest k

/-- Python `setattr`: overwrite the attribute if present, else append it. -/
def setAttr : EstimatorState → String → ℚ → EstimatorState
  | [], k, v => [(k, v)]
  | (k', v') :: rest, k, v =>
      if k' = k then (k, v) :: rest else (k', v') :: setAttr rest k v

/-- The `hparams` configuration dict: `names`, `bitwidth`, `range`. -/
structure HParams where
  names : List String
  bitwidth : Nat
  range : List (ℚ × ℚ)
deriving DecidableEq

/-- `p = p_min + dec_val * ((p_max - p_min) / (2**n_pbits - 1))`: linear
rescaling of the segment's unsigned value from `[0, 2^nbits - 1]` to
`[pmin, pmax]`. -/
def decodeVal (pmin pmax : ℚ) (nbits : Nat) (bits : List Bool) : ℚ :=
  pmin + (binToNat bits : ℚ) * ((pmax - pmin) / ((2 : ℚ) ^ nbits - 1))

/-- One iteration of the hyperparameter loop of `_evalFunction`
(gscv.py lines 148-155), for parameter index `j` (the running offset `i`
of the source equals `j * bitwidth`): slice the segment, interpret it as
unsigned binary, rescale to the parameter's range, round iff the name is
in the hardcoded integral set `['max_depth']`, and assign the value onto
the estimator with `setattr`. -/
def applyHParamStep (hp : HParams) (ind : List Bool) (e : EstimatorState)
    (j : Nat) : EstimatorState :=
  let n := hp.bitwidth
  let name := hp.names.getD j ""
  let pr := hp.range.getD j (0, 0)
  let p := decodeVal pr.1 pr.2 n ((ind.drop (j * n)).take n)
  let p := if name = "max_depth" then ((pyRound p : ℤ) : ℚ) else p
  setAttr e name p

/-- The hyperparameter block of `_evalFunction` (gscv.py lines 144-156):
walk the per-parameter segments applying `applyHParamStep`, and finally
strip the hyperparameter prefix from the chromosome. -/
def applyHParams (hp : HParams) (est0 : EstimatorState) (ind : List Bool) :
    EstimatorState × List Bool :=
  ((List.range hp.names.length).foldl (applyHParamStep hp ind) est0,
   ind.drop (hp.names.length * hp.bitwidth))

/-- The feature segment of a chromosome: the whole gene when no
hyperparameters are configured, everything after the hyperparameter prefix
otherwise. -/
def featureSeg (hp : Option HParams) (ind : List Bool) : List Bool :=
  match hp with
  | none => ind
  | some h => ind.drop (h.names.length * h.bitwidth)

/-- The score cache `scores_cache`: feature-segment key to
`[scores_mean, scores_std]`. -/
abbrev Cache := List (List Bool × (ℚ × ℚ))

/-- Python dict lookup `scores_cache[tuple]`. -/
def cacheLookup : Cache → List Bool → Option (ℚ × ℚ)
  | [], _ => none
  | (k', v') :: rest, k => if k' = k then some v' else cacheLookup rest k

/-- Python dict store: overwrite the key if present, else append it. -/
def cacheInsert : Cache → List Bool → (ℚ × ℚ) → Cache
  | [], k, v => [(k, v)]
  | (k', v') :: rest, k, v =>
      if k' = k then (k, v) :: rest else (k', v') :: cacheInsert rest k v

/-- `np.mean` of the per-fold scores, computed exactly. -/
def listMean (l : List ℚ) : ℚ := l.sum / (l.length : ℚ)

/-- Everything `_evalFunction` produces or mutates: the returned fitness
triple, the cache state, the shared estimator's state, and the number of
times the external `cross_val_score` collaborator was invoked. -/
structure EvalResult where
  fit : ℚ × ℚ × ℚ
  cache : Cache
  est : EstimatorState
  cvCalls : Nat
deriving DecidableEq

/-- Steps 2-5 of `_evalFunction` (gscv.py lines 157-170), operating on the
already-stripped feature segment `ind`: feature count, sentinel check,
cache lookup, external scoring, mean/std, cache store. -/
def evalCore (maxFeatures : Nat) (caching : Bool)
    (cvScore : EstimatorState → List Bool → List ℚ) (stdFn : List ℚ → ℚ)
    (est : EstimatorState) (cache0 : Cache) (ind : List Bool) : EvalResult :=
  let s := countOnes ind
  if s = 0 ∨ maxFeatures < s then
    ⟨((-10000 : ℚ), (s : ℚ), (10000 : ℚ)), cache0, est, 0⟩
  else
    match (if caching then cacheLookup cache0 ind else none) with
    | some ms => ⟨(ms.1, (s : ℚ), ms.2), cache0, est, 0⟩
    | none =>
        let scores := cvScore est ind
        let m := listMean scores
        let sd := stdFn scores
        ⟨(m, (s : ℚ), sd),
         (if caching then cacheInsert cache0 ind (m, sd) else cache0),
         est, 1⟩

/-- Shallow embedding of `_evalFunction` (gscv.py lines 142-170): the
hyperparameter block (decode, round for the integral set, assign onto the
shared estimator, strip the prefix) followed by `evalCore`. `cvScore` is
the external cross-validation scoring collaborator (it receives the
estimator state and the feature mask and yields the per-fold scores);
`stdFn` models `np.std`. The function is total: an infeasible feature
count yields the sentinel fitness, never an exception. -/
def evalFunction (hparams : Option HParams) (maxFeatures : Nat)
    (caching : Bool) (cvScore : EstimatorState → List Bool → List ℚ)
    (stdFn : List ℚ → ℚ) (est0 : EstimatorState) (cache0 : Cache)
    (individual0 : List Bool) : EvalResult :=
  let ei : EstimatorState × List Bool :=
    match hparams with
    | none => (est0, individual0)
    | some hp => applyHParams hp est0 individual0
  evalCore maxFeatures caching cvScore stdFn ei.1 cache0 ei.2

/-- Shallow embedding of `_createIndividual` (gscv.py lines 127-137).
The random draws are parameters: `k` is `np.random.randint(1,
max_features + 1)`, `m` is `np.random.randint(0, hparam_bits + 1)`, and
`shuffleF`, `shuffleH` are the two `np.random.shuffle` outcomes (arbitrary
permutations in the theorems below). -/
def createIndividual (shuffleF shuffleH : List Bool → List Bool) (k n : Nat)
    (hparams : Option HParams) (hparamBits m : Nat) : List Bool :=
  let fGenome := shuffleF (List.replicate k true ++ List.replicate (n - k) false)
  match hparams with
  | some _ =>
      shuffleH (List.replicate m true ++ List.replicate (hparamBits - m) false)
        ++ fGenome
  | none => fGenome

lemma applyHParams_snd (hp : HParams) (e : EstimatorState) (i : List Bool) :
    (applyHParams hp e i).2 = i.drop (hp.names.length * hp.bitwidth) := rfl

lemma cacheLookup_cacheInsert_self (c : Cache) (k : List Bool) (v : ℚ × ℚ) :
    cacheLookup (cacheInsert c k v) k = some v := by
  induction c with
  | nil => simp [cacheInsert, cacheLookup]
  | cons p rest ih =>
      by_cases h : p.1 = k
      · simp [cacheInsert, cacheLookup, h]
      · simp [cacheInsert, cacheLookup, h, ih]

lemma cacheLookup_cacheInsert_other (c : Cache) (k k2 : List Bool)
    (v : ℚ × ℚ) (hne : k ≠ k2) :
    cacheLookup (cacheInsert c k v) k2 = cacheLookup c k2 := by
  induction c with
  | nil => simp [cacheInsert, cacheLookup, hne]
  | cons p rest ih =>
      by_cases h : p.1 = k
      · simp [cacheInsert, cacheLookup, h, hne]
      · simp [cacheInsert, cacheLookup, h, ih]

/-- Claim C1: for every chromosome whose feature segment (after stripping
any hyperparameter segment) has zero set bits or more than `max_features`
set bits, `_evalFunction` returns exactly the sentinel fitness
`(-10000, count, 10000)` with `count` the number of set feature bits, does
not touch the cache, and never invokes the scoring collaborator (the
embedding is total, so no exception is possible). -/
theorem C1_sentinel_fitness (hp : Option HParams) (maxF : Nat)
    (caching : Bool) (cvScore : EstimatorState → List Bool → List ℚ)
    (stdFn : List ℚ → ℚ) (e0 : EstimatorState) (c0 : Cache) (i0 : List Bool)
    (hbad : countOnes (featureSeg hp i0) = 0 ∨
      maxF < countOnes (featureSeg hp i0)) :
    (evalFunction hp maxF caching cvScore stdFn e0 c0 i0).fit =
      ((-10000 : ℚ), (countOnes (featureSeg hp i0) : ℚ), (10000 : ℚ)) ∧
    (evalFunction hp maxF caching cvScore stdFn e0 c0 i0).cache = c0 ∧
    (evalFunction hp maxF caching cvScore stdFn e0 c0 i0).cvCalls = 0 := by
  cases hp with
  | none =>
      simp only [featureSeg] at hbad ⊢
      simp [evalFunction, evalCore, hbad]
  | some h =>
      simp only [featureSeg] at hbad ⊢
      simp [evalFunction, evalCore, applyHParams_snd, hbad]

theorem C1_sentinel_fitness_witness :
    (countOnes (featureSeg none [false, false]) = 0 ∨
      2 < countOnes (featureSeg none [false, false])) ∧
    (evalFunction none 2 true (fun _ _ => [1]) (fun _ => 0) [] []
        [false, false]).fit =
      ((-10000 : ℚ), (countOnes (featureSeg none [false, false]) : ℚ),
        (10000 : ℚ)) :=
  ⟨by decide,
   (C1_sentinel_fitness none 2 true (fun _ _ => [1]) (fun _ => 0) [] []
      [false, false] (by decide)).1⟩

/-- The feature segment of a chromosome built by the initializer: the part
after the `hparam_bits`-bit hyperparameter prefix, when one is present. -/
def initFeatureSeg (hp : Option HParams) (hparamBits : Nat)
    (c : List Bool) : List Bool :=
  match hp with
  | none => c
  | some _ => c.drop hparamBits

lemma length_replicate_genome (a b : Nat) :
    (List.replicate a true ++ List.replicate b false).length = a + b := by
  simp

lemma countOnes_replicate_genome (a b : Nat) :
    countOnes (List.replicate a true ++ List.replicate b false) = a := by
  simp [countOnes, List.count_append, List.count_replicate]

/-- Claim C2: for every valid configuration with
`1 ≤ max_features ≤ n_features`, every chromosome produced by
`_createIndividual` has a feature segment of length `n_features` whose
number of set bits lies in `[1, max_features]`, and when hyperparameters
are configured the chromosome is that segment prefixed by a hyperparameter
segment of exactly `hparam_bits` bits. The random draws `k`, `m` and the
two shuffle outcomes are universally quantified (shuffles are arbitrary
permutations, `k` ranges over `randint(1, max_features + 1)`, `m` over
`randint(0, hparam_bits + 1)`). -/
theorem C2_initializer_bounds (shuffleF shuffleH : List Bool → List Bool)
    (k n maxF : Nat) (hp : Option HParams) (hparamBits m : Nat)
    (hF : ∀ l, (shuffleF l).Perm l) (hH : ∀ l, (shuffleH l).Perm l)
    (hk1 : 1 ≤ k) (hk2 : k ≤ maxF) (hmn : maxF ≤ n) (hm : m ≤ hparamBits) :
    (initFeatureSeg hp hparamBits
        (createIndividual shuffleF shuffleH k n hp hparamBits m)).length = n ∧
    1 ≤ countOnes (initFeatureSeg hp hparamBits
        (createIndividual shuffleF shuffleH k n hp hparamBits m)) ∧
    countOnes (initFeatureSeg hp hparamBits
        (createIndividual shuffleF shuffleH k n hp hparamBits m)) ≤ maxF ∧
    (createIndividual shuffleF shuffleH k n hp hparamBits m).length =
      (if hp.isSome then hparamBits else 0) + n := by
  have hkn : k ≤ n := le_trans hk2 hmn
  have hFlen : (shuffleF (List.replicate k true ++
      List.replicate (n - k) false)).length = n := by
    rw [(hF _).length_eq, length_replicate_genome]
    omega
  have hFcount : countOnes (shuffleF (List.replicate k true ++
      List.replicate (n - k) false)) = k := by
    unfold countOnes
    rw [(hF _).count_eq, ← countOnes, countOnes_replicate_genome]
  have hHlen : (shuffleH (List.replicate m true ++
      List.replicate (hparamBits - m) false)).length = hparamBits := by
    rw [(hH _).length_eq, length_replicate_genome]
    omega
  cases hp with
  | none =>
      refine ⟨?_, ?_, ?_, ?_⟩
      · simpa [initFeatureSeg, createIndividual] using hFlen
      · simpa [initFeatureSeg, createIndividual, hFcount] using hk1
      · simpa [initFeatureSeg, createIndividual, hFcount] using hk2
      · simpa [initFeatureSeg, createIndividual] using hFlen
  | some h =>
      have hdrop : (createIndividual shuffleF shuffleH k n (some h)
          hparamBits m).drop hparamBits =
          shuffleF (List.replicate k true ++ List.replicate (n - k) false) := by
        simp only [createIndividual]
        exact List.drop_left' hHlen
      refine ⟨?_, ?_, ?_, ?_⟩
      · simpa [initFeatureSeg, hdrop] using hFlen
      · simpa [initFeatureSeg, hdrop, hFcount] using hk1
      · simpa [initFeatureSeg, hdrop, hFcount] using hk2
      · simp [createIndividual, hHlen, hFlen]

theorem C2_initializer_bounds_witness :
    (∀ l : List Bool, (id l).Perm l) ∧ 1 ≤ 1 ∧ 1 ≤ 2 ∧ 2 ≤ 3 ∧ 0 ≤ 2 ∧
    countOnes (initFeatureSeg (some ⟨["max_depth"], 2, [(0, 10)]⟩) 2
        (createIndividual id id 1 3 (some ⟨["max_depth"], 2, [(0, 10)]⟩) 2 0))
      ≤ 2 :=
  ⟨fun l => List.Perm.refl l, le_refl 1, by decide, by decide, by decide,
   (C2_initializer_bounds id id 1 3 2 (some ⟨["max_depth"], 2, [(0, 10)]⟩) 2 0
      (fun l => List.Perm.refl l) (fun l => List.Perm.refl l)
      (le_refl 1) (by decide) (by decide) (by decide)).2.2.1⟩

/-- The estimator state after the hyperparameter block of `_evalFunction`
(the identity when no hyperparameters are configured). -/
def estOf (hp : Option HParams) (e0 : EstimatorState) (i0 : List Bool) :
    EstimatorState :=
  match hp with
  | none => e0
  | some h => (applyHParams h e0 i0).1

lemma evalFunction_eq_core (hp : Option HParams) (maxF : Nat) (caching : Bool)
    (cvScore : EstimatorState → List Bool → List ℚ) (stdFn : List ℚ → ℚ)
    (e0 : EstimatorState) (c0 : Cache) (i0 : List Bool) :
    evalFunction hp maxF caching cvScore stdFn e0 c0 i0 =
      evalCore maxF caching cvScore stdFn (estOf hp e0 i0) c0
        (featureSeg hp i0) := by
  cases hp <;> rfl

lemma evalCore_hit (maxF : Nat) (cvScore : EstimatorState → List Bool → List ℚ)
    (stdFn : List ℚ → ℚ) (est : EstimatorState) (c0 : Cache) (ind : List Bool)
    (mv sv : ℚ) (h1 : countOnes ind ≠ 0) (h2 : ¬ maxF < countOnes ind)
    (hl : cacheLookup c0 ind = some (mv, sv)) :
    evalCore maxF true cvScore stdFn est c0 ind =
      ⟨(mv, (countOnes ind : ℚ), sv), c0, est, 0⟩ := by
  simp [evalCore, h1, h2, hl]

lemma evalCore_miss (maxF : Nat) (cvScore : EstimatorState → List Bool → List ℚ)
    (stdFn : List ℚ → ℚ) (est : EstimatorState) (c0 : Cache) (ind : List Bool)
    (h1 : countOnes ind ≠ 0) (h2 : ¬ maxF < countOnes ind)
    (hl : cacheLookup c0 ind = none) :
    evalCore maxF true cvScore stdFn est c0 ind =
      ⟨(listMean (cvScore est ind), (countOnes ind : ℚ),
          stdFn (cvScore est ind)),
        cacheInsert c0 ind
          (listMean (cvScore est ind), stdFn (cvScore est ind)), est, 1⟩ := by
  simp [evalCore, h1, h2, hl]

/-- Claim C3: with caching enabled, evaluating a chromosome whose feature
segment is already in the cache (here: because a first evaluation of a
chromosome with the same feature segment stored it) returns exactly the
first evaluation's fitness triple — the stored mean and dispersion, with
the count recomputed from the feature bits — leaves the cache unchanged,
and does not invoke the scoring collaborator (its call count is 0; note
the second evaluation's own collaborator `cv2` and `std2` are arbitrary
and unused). -/
theorem C3_cache_hit_second_eval (hp : Option HParams) (maxF : Nat)
    (cv1 cv2 : EstimatorState → List Bool → List ℚ) (std1 std2 : List ℚ → ℚ)
    (e1 e2 : EstimatorState) (c0 : Cache) (i1 i2 : List Bool)
    (hfeat : featureSeg hp i2 = featureSeg hp i1)
    (hmiss : cacheLookup c0 (featureSeg hp i1) = none)
    (hlo : 0 < countOnes (featureSeg hp i1))
    (hhi : countOnes (featureSeg hp i1) ≤ maxF) :
    (evalFunction hp maxF true cv2 std2 e2
        (evalFunction hp maxF true cv1 std1 e1 c0 i1).cache i2).fit =
      (evalFunction hp maxF true cv1 std1 e1 c0 i1).fit ∧
    (evalFunction hp maxF true cv2 std2 e2
        (evalFunction hp maxF true cv1 std1 e1 c0 i1).cache i2).cache =
      (evalFunction hp maxF true cv1 std1 e1 c0 i1).cache ∧
    (evalFunction hp maxF true cv2 std2 e2
        (evalFunction hp maxF true cv1 std1 e1 c0 i1).cache i2).cvCalls = 0 := by
  have h1 : countOnes (featureSeg hp i1) ≠ 0 := by omega
  have h2 : ¬ maxF < countOnes (featureSeg hp i1) := not_lt.mpr hhi
  rw [evalFunction_eq_core hp maxF true cv1 std1 e1 c0 i1,
    evalCore_miss maxF cv1 std1 _ c0 _ h1 h2 hmiss,
    evalFunction_eq_core hp maxF true cv2 std2 e2 _ i2, hfeat,
    evalCore_hit maxF cv2 std2 _ _ _
      (listMean (cv1 (estOf hp e1 i1) (featureSeg hp i1)))
      (std1 (cv1 (estOf hp e1 i1) (featureSeg hp i1))) h1 h2
      (cacheLookup_cacheInsert_self c0 (featureSeg hp i1) _)]
  exact ⟨rfl, rfl, rfl⟩

theorem C3_cache_hit_second_eval_witness :
    cacheLookup [] (featureSeg none [true]) = none ∧
    0 < countOnes (featureSeg none [true]) ∧
    countOnes (featureSeg none [true]) ≤ 1 ∧
    (evalFunction none 1 true (fun _ _ => [0]) (fun _ => 5) []
        (evalFunction none 1 true (fun _ _ => [1, 1]) (fun _ => 0) [] []
          [true]).cache [true]).fit =
      (evalFunction none 1 true (fun _ _ => [1, 1]) (fun _ => 0) [] []
        [true]).fit :=
  ⟨rfl, by decide, by decide,
   (C3_cache_hit_second_eval none 1 (fun _ _ => [1, 1]) (fun _ _ => [0])
      (fun _ => 0) (fun _ => 5) [] [] [] [true] [true] rfl rfl (by decide)
      (by decide)).1⟩

/-- Claim C7: with caching enabled and hyperparameters configured, the
cache key is the feature segment only. For any two chromosomes
`h1 ++ f` and `h2 ++ f` with identical feature bits `f` but arbitrary
(possibly different) hyperparameter bits, after the first evaluation fills
the cache, the second evaluation hits the first's entry and returns the
first's stored mean and dispersion — regardless of `h2`, of the second
estimator state, and of the second evaluation's scoring collaborator,
which is never invoked. -/
theorem C7_cache_key_features_only (h : HParams) (maxF : Nat)
    (cv1 cv2 : EstimatorState → List Bool → List ℚ) (std1 std2 : List ℚ → ℚ)
    (e1 e2 : EstimatorState) (c0 : Cache) (h1 h2 f : List Bool)
    (hl1 : h1.length = h.names.length * h.bitwidth)
    (hl2 : h2.length = h.names.length * h.bitwidth)
    (hmiss : cacheLookup c0 f = none)
    (hlo : 0 < countOnes f) (hhi : countOnes f ≤ maxF) :
    (evalFunction (some h) maxF true cv2 std2 e2
        (evalFunction (some h) maxF true cv1 std1 e1 c0 (h1 ++ f)).cache
        (h2 ++ f)).fit.1 =
      (evalFunction (some h) maxF true cv1 std1 e1 c0 (h1 ++ f)).fit.1 ∧
    (evalFunction (some h) maxF true cv2 std2 e2
        (evalFunction (some h) maxF true cv1 std1 e1 c0 (h1 ++ f)).cache
        (h2 ++ f)).fit.2.2 =
      (evalFunction (some h) maxF true cv1 std1 e1 c0 (h1 ++ f)).fit.2.2 ∧
    (evalFunction (some h) maxF true cv2 std2 e2
        (evalFunction (some h) maxF true cv1 std1 e1 c0 (h1 ++ f)).cache
        (h2 ++ f)).cvCalls = 0 := by
  have hf1 : featureSeg (some h) (h1 ++ f) = f := by
    simp only [featureSeg]
    exact List.drop_left' hl1
  have hf2 : featureSeg (some h) (h2 ++ f) = f := by
    simp only [featureSeg]
    exact List.drop_left' hl2
  have hc1 : countOnes f ≠ 0 := by omega
  have hc2 : ¬ maxF < countOnes f := not_lt.mpr hhi
  rw [evalFunction_eq_core (some h) maxF true cv1 std1 e1 c0 (h1 ++ f), hf1,
    evalCore_miss maxF cv1 std1 _ c0 f hc1 hc2 hmiss,
    evalFunction_eq_core (some h) maxF true cv2 std2 e2 _ (h2 ++ f), hf2,
    evalCore_hit maxF cv2 std2 _ _ f
      (listMean (cv1 (estOf (some h) e1 (h1 ++ f)) f))
      (std1 (cv1 (estOf (some h) e1 (h1 ++ f)) f)) hc1 hc2
      (cacheLookup_cacheInsert_self c0 f _)]
  exact ⟨rfl, rfl, rfl⟩

theorem C7_cache_key_features_only_witness :
    ([true] : List Bool).length = 1 * 1 ∧ ([false] : List Bool).length = 1 * 1 ∧
    cacheLookup [] [true] = none ∧ 0 < countOnes [true] ∧ countOnes [true] ≤ 1 ∧
    (evalFunction (some ⟨["max_depth"], 1, [(0, 10)]⟩) 1 true
        (fun _ _ => [0]) (fun _ => 7) [("max_depth", 0)]
        (evalFunction (some ⟨["max_depth"], 1, [(0, 10)]⟩) 1 true
          (fun _ _ => [1, 1]) (fun _ => 0) [] [] ([true] ++ [true])).cache
        ([false] ++ [true])).cvCalls = 0 :=
  ⟨by decide, by decide, rfl, by decide, by decide,
   (C7_cache_key_features_only ⟨["max_depth"], 1, [(0, 10)]⟩ 1
      (fun _ _ => [1, 1]) (fun _ _ => [0]) (fun _ => 0) (fun _ => 7)
      [] [("max_depth", 0)] [] [true] [false] [true] (by decide) (by decide)
      rfl (by decide) (by decide)).2.2⟩

/-- An individual as seen by the generational loop: its gene (the bit
list) and its already-evaluated fitness triple. -/
structure Indiv where
  gene : List Bool
  fitness : ℚ × ℚ × ℚ
deriving DecidableEq

/-- The weighted fitness comparator: the objective weights registered for
`Fitness_new` are `(1.0, -0.1, -0.5)` (gscv.py line 42), so two fitness
triples are ranked by this weighted sum. -/
def weightedFitness (f : ℚ × ℚ × ℚ) : ℚ := f.1 - f.2.1 / 10 - f.2.2 / 2

/-- Modelled from the spec: DEAP `tools.HallOfFame(1,
similar=np.array_equal)` is an external dependency (its code is not in
this repository); per the spec the hall of fame retains the single
best-ever chromosome by the weighted fitness comparator, with ties broken
by equality of the gene content (an individual whose gene equals the
incumbent's never replaces it). One candidate is considered here. -/
def hofConsider (b ind : Indiv) : Indiv :=
  if weightedFitness b.fitness < weightedFitness ind.fitness ∧
      ind.gene ≠ b.gene then ind else b

/-- Modelled from the spec: `halloffame.update(offspring)` — fold
`hofConsider` over the candidate population. -/
def hofUpdate (b : Indiv) (pop : List Indiv) : Indiv :=
  pop.foldl hofConsider b

/-- The loop state carried between generations of `_eaFunction`: the
current population, the hall-of-fame individual, and the stagnation
counter `wait`. -/
structure EAState where
  pop : List Indiv
  hof : Indiv
  wait : Nat
deriving DecidableEq

/-- One generation of `_eaFunction` (gscv.py lines 70-118): select and
vary (abstracted as the oracle `vary`, which also re-evaluates the
modified offspring), extend the offspring with the hall-of-fame items,
remember the previous best, update the hall of fame, replace the
population, and increment the stagnation counter iff the new best
individual equals (`==` on the gene list) the previous best. -/
def eaStep (vary : Nat → List Indiv → List Indiv) (g : Nat)
    (s : EAState) : EAState :=
  let offspring := vary g s.pop ++ [s.hof]
  let prevBest := s.hof
  let hofNew := hofUpdate s.hof offspring
  ⟨offspring, hofNew,
   if hofNew.gene = prevBest.gene then s.wait + 1 else 0⟩

/-- `ngen_no_change is not None and wait >= ngen_no_change`
(gscv.py line 121). -/
def stopHit : Option Nat → Nat → Bool
  | none, _ => false
  | some k, w => decide (k ≤ w)

/-- The generational process without the early-stop check: the state after
`i` further generations, starting from the state after generation `g0`. -/
def pureRun (vary : Nat → List Indiv → List Indiv) (g0 : Nat)
    (s : EAState) : Nat → EAState
  | 0 => s
  | i + 1 => eaStep vary (g0 + i + 1) (pureRun vary g0 s i)

/-- The `for gen in range(1, ngen + 1)` loop of `_eaFunction` with its
`break` (gscv.py lines 70-122): runs up to `fuel` further generations,
stopping after any generation whose updated stagnation counter reaches the
configured limit. Returns the final state and the number of generations
actually executed. -/
def eaLoop (vary : Nat → List Indiv → List Indiv) (nnc : Option Nat) :
    Nat → Nat → EAState → EAState × Nat
  | 0, _, s => (s, 0)
  | fuel + 1, g0, s =>
      let sNew := eaStep vary (g0 + 1) s
      if stopHit nnc sNew.wait then (sNew, 1)
      else
        let r := eaLoop vary nnc fuel (g0 + 1) sNew
        (r.1, r.2 + 1)

lemma eaStep_hof (vary : Nat → List Indiv → List Indiv) (g : Nat)
    (s : EAState) :
    (eaStep vary g s).hof = hofUpdate s.hof (vary g s.pop ++ [s.hof]) := rfl

lemma eaStep_wait (vary : Nat → List Indiv → List Indiv) (g : Nat)
    (s : EAState) :
    (eaStep vary g s).wait =
      if (eaStep vary g s).hof.gene = s.hof.gene then s.wait + 1 else 0 := rfl

lemma weightedFitness_hofConsider_le (b x : Indiv) :
    weightedFitness b.fitness ≤ weightedFitness (hofConsider b x).fitness := by
  unfold hofConsider
  split
  · next h => exact le_of_lt h.1
  · exact le_refl _

lemma weightedFitness_hofUpdate_le (b : Indiv) (l : List Indiv) :
    weightedFitness b.fitness ≤ weightedFitness (hofUpdate b l).fitness := by
  induction l generalizing b with
  | nil => exact le_refl _
  | cons x l ih =>
      calc weightedFitness b.fitness
          ≤ weightedFitness (hofConsider b x).fitness :=
            weightedFitness_hofConsider_le b x
        _ ≤ weightedFitness (hofUpdate (hofConsider b x) l).fitness := ih _

lemma hofConsider_eq_of_not_lt (b x : Indiv)
    (h : ¬ weightedFitness b.fitness < weightedFitness x.fitness) :
    hofConsider b x = b := by
  unfold hofConsider
  rw [if_neg]
  intro hc
  exact h hc.1

lemma hofUpdate_eq_of_forall (b : Indiv) (l : List Indiv)
    (h : ∀ x ∈ l, ¬ weightedFitness b.fitness < weightedFitness x.fitness) :
    hofUpdate b l = b := by
  induction l with
  | nil => rfl
  | cons x l ih =>
      have hb : hofConsider b x = b :=
        hofConsider_eq_of_not_lt b x (h x (List.mem_cons_self x l))
      show hofUpdate (hofConsider b x) l = b
      rw [hb]
      exact ih (fun y hy => h y (List.mem_cons_of_mem x hy))

lemma weightedFitness_eaStep_le (vary : Nat → List Indiv → List Indiv)
    (g : Nat) (s : EAState) :
    weightedFitness s.hof.fitness ≤
      weightedFitness (eaStep vary g s).hof.fitness := by
  rw [eaStep_hof]
  exact weightedFitness_hofUpdate_le _ _

lemma eaStep_hof_eq_of_no_improve (vary : Nat → List Indiv → List Indiv)
    (g : Nat) (s : EAState)
    (h : ∀ x ∈ vary g s.pop,
      ¬ weightedFitness s.hof.fitness < weightedFitness x.fitness) :
    (eaStep vary g s).hof = s.hof := by
  rw [eaStep_hof]
  apply hofUpdate_eq_of_forall
  intro x hx
  rcases List.mem_append.mp hx with h1 | h2
  · exact h x h1
  · have hxe : x = s.hof := by simpa using h2
    subst hxe
    exact lt_irrefl _

lemma weightedFitness_pureRun_le (vary : Nat → List Indiv → List Indiv)
    (g0 : Nat) (s : EAState) (i j : Nat) (hij : i ≤ j) :
    weightedFitness (pureRun vary g0 s i).hof.fitness ≤
      weightedFitness (pureRun vary g0 s j).hof.fitness := by
  induction j, hij using Nat.le_induction with
  | base => exact le_refl _
  | succ j hij ih =>
      exact le_trans ih (weightedFitness_eaStep_le vary (g0 + j + 1) _)

/-- Claim C4: across the generations of one run, the hall-of-fame
best-ever fitness by the weighted comparator is monotonically
non-decreasing — both over a single generation step and over any span of
generations — and the hall-of-fame individual persists unchanged through
any generation in which no evaluated candidate strictly improves on it. -/
theorem C4_hof_monotone :
    (∀ (vary : Nat → List Indiv → List Indiv) (g : Nat) (s : EAState),
      weightedFitness s.hof.fitness ≤
        weightedFitness (eaStep vary g s).hof.fitness) ∧
    (∀ (vary : Nat → List Indiv → List Indiv) (g0 : Nat) (s : EAState)
        (i j : Nat), i ≤ j →
      weightedFitness (pureRun vary g0 s i).hof.fitness ≤
        weightedFitness (pureRun vary g0 s j).hof.fitness) ∧
    (∀ (vary : Nat → List Indiv → List Indiv) (g : Nat) (s : EAState),
      (∀ x ∈ vary g s.pop,
        ¬ weightedFitness s.hof.fitness < weightedFitness x.fitness) →
      (eaStep vary g s).hof = s.hof) :=
  ⟨weightedFitness_eaStep_le,
   fun vary g0 s i j hij => weightedFitness_pureRun_le vary g0 s i j hij,
   eaStep_hof_eq_of_no_improve⟩

theorem C4_hof_monotone_witness :
    (0 ≤ 2) ∧
    weightedFitness
        ((pureRun (fun _ _ => []) 0 ⟨[], ⟨[true], (1, 1, 0)⟩, 0⟩ 0).hof.fitness) ≤
      weightedFitness
        ((pureRun (fun _ _ => []) 0 ⟨[], ⟨[true], (1, 1, 0)⟩, 0⟩ 2).hof.fitness) ∧
    (eaStep (fun _ _ => []) 1 ⟨[], ⟨[true], (1, 1, 0)⟩, 0⟩).hof =
      (⟨[], ⟨[true], (1, 1, 0)⟩, 0⟩ : EAState).hof :=
  ⟨Nat.zero_le 2,
   C4_hof_monotone.2.1 (fun _ _ => []) 0 ⟨[], ⟨[true], (1, 1, 0)⟩, 0⟩ 0 2
     (Nat.zero_le 2),
   C4_hof_monotone.2.2 (fun _ _ => []) 1 ⟨[], ⟨[true], (1, 1, 0)⟩, 0⟩
     (fun x hx => absurd hx (List.not_mem_nil x))⟩

lemma eaLoop_le_fuel (vary : Nat → List Indiv → List Indiv)
    (nnc : Option Nat) :
    ∀ (fuel g0 : Nat) (s : EAState), (eaLoop vary nnc fuel g0 s).2 ≤ fuel := by
  intro fuel
  induction fuel with
  | zero => intro g0 s; exact le_refl 0
  | succ fuel ih =>
      intro g0 s
      by_cases hc : stopHit nnc (eaStep vary (g0 + 1) s).wait
      · simp [eaLoop, hc]
      · simp only [eaLoop, hc, if_neg, Bool.false_eq_true, if_false]
        have := ih (g0 + 1) (eaStep vary (g0 + 1) s)
        omega

lemma eaLoop_none_eq_fuel (vary : Nat → List Indiv → List Indiv) :
    ∀ (fuel g0 : Nat) (s : EAState), (eaLoop vary none fuel g0 s).2 = fuel := by
  intro fuel
  induction fuel with
  | zero => intro g0 s; rfl
  | succ fuel ih =>
      intro g0 s
      simp only [eaLoop, stopHit, Bool.false_eq_true, if_false]
      rw [ih (g0 + 1) (eaStep vary (g0 + 1) s)]

lemma pureRun_succ_shift (vary : Nat → List Indiv → List Indiv)
    (g0 : Nat) (s : EAState) :
    ∀ i, pureRun vary g0 s (i + 1) =
      pureRun vary (g0 + 1) (eaStep vary (g0 + 1) s) i := by
  intro i
  induction i with
  | zero => rfl
  | succ i ih =>
      show eaStep vary (g0 + (i + 1) + 1) (pureRun vary g0 s (i + 1)) =
        eaStep vary (g0 + 1 + i + 1)
          (pureRun vary (g0 + 1) (eaStep vary (g0 + 1) s) i)
      rw [ih]
      congr 1
      omega

lemma eaLoop_stops_at (vary : Nat → List Indiv → List Indiv)
    (nnc : Option Nat) :
    ∀ (fuel g0 : Nat) (s : EAState) (i : Nat), 1 ≤ i → i ≤ fuel →
      stopHit nnc (pureRun vary g0 s i).wait = true →
      (eaLoop vary nnc fuel g0 s).2 ≤ i := by
  intro fuel
  induction fuel with
  | zero => intro g0 s i _ _ _; exact Nat.zero_le i
  | succ fuel ih =>
      intro g0 s i h1 h2 hstop
      by_cases hc : stopHit nnc (eaStep vary (g0 + 1) s).wait
      · simp only [eaLoop, hc, if_true]
        exact h1
      · simp only [eaLoop, hc, Bool.false_eq_true, if_false]
        have hi2 : 2 ≤ i := by
          rcases Nat.lt_or_ge i 2 with hlt | hge
          · exfalso
            have hieq : i = 1 := by omega
            subst hieq
            have : pureRun vary g0 s 1 = eaStep vary (g0 + 1) s := by
              show eaStep vary (g0 + 0 + 1) s = eaStep vary (g0 + 1) s
              rw [Nat.add_zero]
            rw [this] at hstop
            exact hc hstop
          · exact hge
        have hi : i - 1 + 1 = i := by omega
        have hstop' : stopHit nnc
            (pureRun vary (g0 + 1) (eaStep vary (g0 + 1) s) (i - 1)).wait
              = true := by
          rw [← pureRun_succ_shift, hi]
          exact hstop
        have := ih (g0 + 1) (eaStep vary (g0 + 1) s) (i - 1)
          (by omega) (by omega) hstop'
        omega

lemma pureRun_wait_ge (vary : Nat → List Indiv → List Indiv)
    (g0 : Nat) (s : EAState) (g : Nat) :
    ∀ k, (∀ j, g < j → j ≤ g + k →
        (pureRun vary g0 s j).hof.gene =
          (pureRun vary g0 s (j - 1)).hof.gene) →
      k ≤ (pureRun vary g0 s (g + k)).wait := by
  intro k
  induction k with
  | zero => intro _; exact Nat.zero_le _
  | succ k ih =>
      intro h
      have hgene : (pureRun vary g0 s (g + k + 1)).hof.gene =
          (pureRun vary g0 s (g + k)).hof.gene := by
        have := h (g + k + 1) (by omega) (by omega)
        simpa using this
      have hstep : pureRun vary g0 s (g + k + 1) =
          eaStep vary (g0 + (g + k) + 1) (pureRun vary g0 s (g + k)) := rfl
      have hwait : (pureRun vary g0 s (g + k + 1)).wait =
          (pureRun vary g0 s (g + k)).wait + 1 := by
        rw [hstep, eaStep_wait, if_pos]
        rw [← hstep]
        exact hgene
      show k + 1 ≤ (pureRun vary g0 s (g + k + 1)).wait
      rw [hwait]
      have := ih (fun j hj1 hj2 => h j hj1 (by omega))
      omega

/-- Claim C5: if a stagnation limit `n_gen_no_change = k` is configured
and the hall-of-fame best individual is unchanged (bit-identical) for `k`
consecutive generations, the generational loop terminates at that point —
at or before exhausting the `n_generations` budget (the loop never
executes more than the budgeted `fuel` generations); without a configured
limit it runs exactly the budgeted number of generations. -/
theorem C5_stagnation_early_stop :
    (∀ (vary : Nat → List Indiv → List Indiv) (fuel g0 : Nat) (s : EAState),
      (eaLoop vary none fuel g0 s).2 = fuel) ∧
    (∀ (vary : Nat → List Indiv → List Indiv) (nnc : Option Nat)
        (fuel g0 : Nat) (s : EAState), (eaLoop vary nnc fuel g0 s).2 ≤ fuel) ∧
    (∀ (vary : Nat → List Indiv → List Indiv) (k fuel g : Nat) (s : EAState),
      1 ≤ k → g + k ≤ fuel →
      (∀ j, g < j → j ≤ g + k →
        (pureRun vary 0 s j).hof.gene = (pureRun vary 0 s (j - 1)).hof.gene) →
      (eaLoop vary (some k) fuel 0 s).2 ≤ g + k) := by
  refine ⟨eaLoop_none_eq_fuel, fun vary nnc => eaLoop_le_fuel vary nnc, ?_⟩
  intro vary k fuel g s hk hbudget hwindow
  apply eaLoop_stops_at vary (some k) fuel 0 s (g + k) (by omega) hbudget
  have hwait := pureRun_wait_ge vary 0 s g k hwindow
  simp only [stopHit, decide_eq_true_eq]
  exact hwait

theorem C5_stagnation_early_stop_witness :
    (eaLoop (fun _ _ => []) none 3 0 ⟨[], ⟨[true], (1, 1, 0)⟩, 0⟩).2 = 3 ∧
    (1 : Nat) ≤ 1 ∧ 0 + 1 ≤ 3 ∧
    (eaLoop (fun _ _ => []) (some 1) 3 0 ⟨[], ⟨[true], (1, 1, 0)⟩, 0⟩).2
      ≤ 0 + 1 :=
  ⟨C5_stagnation_early_stop.1 (fun _ _ => []) 3 0 ⟨[], ⟨[true], (1, 1, 0)⟩, 0⟩,
   le_refl 1, by omega,
   C5_stagnation_early_stop.2.2 (fun _ _ => []) 1 3 0
     ⟨[], ⟨[true], (1, 1, 0)⟩, 0⟩ (le_refl 1) (by omega)
     (by
       intro j hj1 hj2
       have hj : j = 1 := by omega
       subst hj
       have h1 : pureRun (fun _ _ => []) 0 ⟨[], ⟨[true], (1, 1, 0)⟩, 0⟩ 1 =
           eaStep (fun _ _ => []) 1 ⟨[], ⟨[true], (1, 1, 0)⟩, 0⟩ := rfl
       have h0 : pureRun (fun _ _ => []) 0 ⟨[], ⟨[true], (1, 1, 0)⟩, 0⟩
           (1 - 1) = ⟨[], ⟨[true], (1, 1, 0)⟩, 0⟩ := rfl
       rw [h1, h0, eaStep_hof_eq_of_no_improve (fun _ _ => []) 1
         ⟨[], ⟨[true], (1, 1, 0)⟩, 0⟩
         (fun x hx => absurd hx (List.not_mem_nil x))])⟩

lemma nthD_map {α β : Type} (f : α → β) :
    ∀ (l : List α) (i : Nat) (da : α) (db : β), i < l.length →
      (l.map f).getD i db = f (l.getD i da) := by
  intro l
  induction l with
  | nil => intro i da db h; simp at h
  | cons a l ih =>
      intro i da db h
      cases i with
      | zero => simp
      | succ i =>
          simp only [List.map_cons, List.getD_cons_succ]
          exact ih i da db (by simpa using h)

lemma nthD_mem {α : Type} :
    ∀ (l : List α) (i : Nat) (d : α), i < l.length → l.getD i d ∈ l := by
  intro l
  induction l with
  | nil => intro i d h; simp at h
  | cons a l ih =>
      intro i d h
      cases i with
      | zero => simp
      | succ i =>
          simp only [List.getD_cons_succ]
          exact List.mem_cons_of_mem a (ih i d (by simpa using h))

lemma nthD_append_left {α : Type} :
    ∀ (l1 l2 : List α) (i : Nat) (d : α), i < l1.length →
      (l1 ++ l2).getD i d = l1.getD i d := by
  intro l1
  induction l1 with
  | nil => intro l2 i d h; simp at h
  | cons a l1 ih =>
      intro l2 i d h
      cases i with
      | zero => simp
      | succ i =>
          simp only [List.cons_append, List.getD_cons_succ]
          exact ih l2 i d (by simpa using h)

lemma nthD_append_len {α : Type} :
    ∀ (l1 l2 : List α) (n : Nat) (d : α), l1.length = n →
      (l1 ++ l2).getD n d = l2.getD 0 d := by
  intro l1
  induction l1 with
  | nil =>
      intro l2 n d h
      simp at h
      subst h
      simp
  | cons a l1 ih =>
      intro l2 n d h
      cases n with
      | zero => simp at h
      | succ n =>
          simp only [List.cons_append, List.getD_cons_succ]
          exact ih l2 n d (by simpa using h)

lemma nthD_range (n i d : Nat) (h : i < n) :
    (List.range n).getD i d = i := by
  rw [List.getD_eq_getElem?_getD, List.getElem?_range h]
  rfl

lemma drop_append_len {α : Type} :
    ∀ (b l : List α) (m : Nat), (b ++ l).drop (b.length + m) = l.drop m := by
  intro b
  induction b with
  | nil => intro l m; simp
  | cons a b ih =>
      intro l m
      show (a :: (b ++ l)).drop (b.length + 1 + m) = l.drop m
      have harith : b.length + 1 + m = (b.length + m) + 1 := by omega
      rw [harith, List.drop_succ_cons]
      exact ih l m

lemma take_append_len {α : Type} :
    ∀ (b l : List α), (b ++ l).take b.length = b := by
  intro b
  induction b with
  | nil => intro l; simp
  | cons a b ih =>
      intro l
      simp only [List.cons_append, List.length_cons, List.take_succ_cons]
      rw [ih l]

lemma drop_eq_nthD_cons {α : Type} :
    ∀ (l : List α) (i : Nat) (d : α), i < l.length →
      l.drop i = l.getD i d :: l.drop (i + 1) := by
  intro l
  induction l with
  | nil => intro i d h; simp at h
  | cons a l ih =>
      intro i d h
      cases i with
      | zero => simp
      | succ i =>
          simp only [List.drop_succ_cons, List.getD_cons_succ]
          exact ih i d (by simpa using h)

lemma foldl_min_const {α : Type} (L : Nat) :
    ∀ (rest : List (List α)) (a : Nat), (∀ x ∈ rest, x.length = L) →
      a = L → rest.foldl (fun acc x => Nat.min acc x.length) a = L := by
  intro rest
  induction rest with
  | nil => intro a _ ha; simpa using ha
  | cons x rest ih =>
      intro a h ha
      show rest.foldl (fun acc x => Nat.min acc x.length)
        (Nat.min a x.length) = L
      apply ih
      · intro y hy; exact h y (List.mem_cons_of_mem x hy)
      · rw [ha, h x (List.mem_cons_self x rest)]
        exact Nat.min_self L

lemma sum_map_length_const {α : Type} :
    ∀ (l : List (List α)) (c : Nat), (∀ x ∈ l, x.length = c) →
      (l.map List.length).sum = l.length * c := by
  intro l
  induction l with
  | nil => intro c _; simp
  | cons x l ih =>
      intro c h
      simp only [List.map_cons, List.sum_cons, List.length_cons]
      rw [h x (List.mem_cons_self x l),
        ih c (fun y hy => h y (List.mem_cons_of_mem x hy))]
      ring

lemma join_drop_blocks {α : Type} :
    ∀ (j : Nat) (bs : List (List α)) (w : Nat),
      (∀ i, i < j → (bs.getD i []).length = w) →
      bs.flatten.drop (j * w) = (bs.drop j).flatten := by
  intro j
  induction j with
  | zero => intro bs w _; simp
  | succ j ih =>
      intro bs w h
      cases bs with
      | nil => simp
      | cons b bs =>
          have hb : b.length = w := by simpa using h 0 (by omega)
          have harith : (j + 1) * w = b.length + j * w := by rw [hb]; ring
          simp only [List.flatten_cons, List.drop_succ_cons]
          rw [harith, drop_append_len]
          exact ih bs w (fun i hi => by simpa using h (i + 1) (by omega))

/-- The `genes` list built by the hyperparameter branch of `_eaFunction`
(gscv.py lines 76-84): for each hyperparameter index `j` the offspring's
`j`-th `bitwidth`-wide segments passed through `algorithms.varAnd`
(abstracted as `varA`), followed by the offspring's feature segments
passed through `varA`. -/
def segMatrix (varA : List (List Bool) → List (List Bool))
    (nNames nPbits : Nat) (offspring : List (List Bool)) :
    List (List (List Bool)) :=
  ((List.range nNames).map fun j =>
      varA (offspring.map fun ind => (ind.drop (j * nPbits)).take nPbits))
    ++ [varA (offspring.map fun ind => ind.drop (nNames * nPbits))]

/-- The length of Python `zip(*ls)`: the length of the shortest row
(0 when there are no rows). -/
def pyZipLen {α : Type} : List (List α) → Nat
  | [] => 0
  | l :: rest => rest.foldl (fun acc x => Nat.min acc x.length) l.length

/-- Python `zip(*ls)`: the transpose truncated at the shortest row. -/
def pyZip {α : Type} (dflt : α) (ls : List (List α)) : List (List α) :=
  (List.range (pyZipLen ls)).map fun i => ls.map fun l => l.getD i dflt

/-- The rebuild step of the hyperparameter branch (gscv.py line 85):
`offspring = [Individual_new(itertools.chain.from_iterable(ind)) for ind
in zip(*genes)]` — each offspring is the concatenation of its varied
segments in their original order. -/
def varySegmentwise (varA : List (List Bool) → List (List Bool))
    (nNames nPbits : Nat) (offspring : List (List Bool)) :
    List (List Bool) :=
  (pyZip [] (segMatrix varA nNames nPbits offspring)).map List.flatten

lemma segMatrix_getD_lt (varA : List (List Bool) → List (List Bool))
    (nNames nPbits : Nat) (offspring : List (List Bool)) (j : Nat)
    (hj : j < nNames) :
    (segMatrix varA nNames nPbits offspring).getD j [] =
      varA (offspring.map fun ind => (ind.drop (j * nPbits)).take nPbits) := by
  unfold segMatrix
  rw [nthD_append_left _ _ j [] (by simpa using hj),
    nthD_map _ _ j 0 [] (by simpa using hj), nthD_range nNames j 0 hj]

lemma segMatrix_getD_last (varA : List (List Bool) → List (List Bool))
    (nNames nPbits : Nat) (offspring : List (List Bool)) :
    (segMatrix varA nNames nPbits offspring).getD nNames [] =
      varA (offspring.map fun ind => ind.drop (nNames * nPbits)) := by
  unfold segMatrix
  rw [nthD_append_len _ _ nNames [] (by simp)]
  simp

lemma segMatrix_row_length (varA : List (List Bool) → List (List Bool))
    (nNames nPbits : Nat) (offspring : List (List Bool))
    (hLen : ∀ l, (varA l).length = l.length) :
    ∀ g ∈ segMatrix varA nNames nPbits offspring,
      g.length = offspring.length := by
  intro g hg
  rcases List.mem_append.mp hg with h1 | h2
  · rcases List.mem_map.mp h1 with ⟨j, _, rfl⟩
    rw [hLen, List.length_map]
  · have hgl : g = varA (offspring.map fun ind =>
        ind.drop (nNames * nPbits)) := by simpa using h2
    rw [hgl, hLen, List.length_map]

lemma pyZipLen_segMatrix (varA : List (List Bool) → List (List Bool))
    (nNames nPbits : Nat) (offspring : List (List Bool))
    (hLen : ∀ l, (varA l).length = l.length) :
    pyZipLen (segMatrix varA nNames nPbits offspring) = offspring.length := by
  have hrows := segMatrix_row_length varA nNames nPbits offspring hLen
  cases hsm : segMatrix varA nNames nPbits offspring with
  | nil =>
      exfalso
      have : (segMatrix varA nNames nPbits offspring).length = nNames + 1 := by
        simp [segMatrix]
      rw [hsm] at this
      simp at this
  | cons g rest =>
      show rest.foldl (fun acc x => Nat.min acc x.length) g.length =
        offspring.length
      apply foldl_min_const
      · intro x hx
        exact hrows x (hsm ▸ List.mem_cons_of_mem g hx)
      · exact hrows g (hsm ▸ List.mem_cons_self g rest)

lemma varySegmentwise_getD (varA : List (List Bool) → List (List Bool))
    (nNames nPbits : Nat) (offspring : List (List Bool)) (idx : Nat)
    (hLen : ∀ l, (varA l).length = l.length)
    (hidx : idx < offspring.length) :
    (varySegmentwise varA nNames nPbits offspring).getD idx [] =
      ((segMatrix varA nNames nPbits offspring).map
        (fun g => g.getD idx [])).flatten := by
  have hzl := pyZipLen_segMatrix varA nNames nPbits offspring hLen
  have hidx' : idx < pyZipLen (segMatrix varA nNames nPbits offspring) := by
    rw [hzl]; exact hidx
  unfold varySegmentwise pyZip
  rw [nthD_map List.flatten _ idx [] [] (by simpa using hidx'),
    nthD_map _ _ idx 0 [] (by simpa using hidx'),
    nthD_range _ idx 0 hidx']


lemma take_append_of_len {α : Type} (b l : List α) (n : Nat)
    (h : b.length = n) : (b ++ l).take n = b := by
  rw [← h]
  exact take_append_len b l

lemma block_len_lt (varA : List (List Bool) → List (List Bool))
    (nNames nPbits nFeat : Nat) (offspring : List (List Bool))
    (idx j : Nat)
    (hElem : ∀ l i, ((varA l).getD i []).length = (l.getD i []).length)
    (hOff : ∀ ind ∈ offspring, ind.length = nNames * nPbits + nFeat)
    (hidx : idx < offspring.length) (hj : j < nNames) :
    ((varA (offspring.map fun ind =>
      (ind.drop (j * nPbits)).take nPbits)).getD idx []).length = nPbits := by
  have hOffIdx : (offspring.getD idx []).length = nNames * nPbits + nFeat :=
    hOff _ (nthD_mem offspring idx [] hidx)
  rw [hElem, nthD_map _ offspring idx [] [] hidx, List.length_take,
    List.length_drop, hOffIdx]
  have h3 : nPbits + j * nPbits ≤ nNames * nPbits + nFeat := by
    calc nPbits + j * nPbits = (j + 1) * nPbits := by ring
      _ ≤ nNames * nPbits := Nat.mul_le_mul_right nPbits (by omega)
      _ ≤ nNames * nPbits + nFeat := Nat.le_add_right _ _
  exact Nat.min_eq_left (Nat.le_sub_of_add_le h3)

lemma block_len_last (varA : List (List Bool) → List (List Bool))
    (nNames nPbits nFeat : Nat) (offspring : List (List Bool)) (idx : Nat)
    (hElem : ∀ l i, ((varA l).getD i []).length = (l.getD i []).length)
    (hOff : ∀ ind ∈ offspring, ind.length = nNames * nPbits + nFeat)
    (hidx : idx < offspring.length) :
    ((varA (offspring.map fun ind =>
      ind.drop (nNames * nPbits))).getD idx []).length = nFeat := by
  have hOffIdx : (offspring.getD idx []).length = nNames * nPbits + nFeat :=
    hOff _ (nthD_mem offspring idx [] hidx)
  rw [hElem, nthD_map _ offspring idx [] [] hidx, List.length_drop, hOffIdx]
  exact Nat.add_sub_cancel_left (nNames * nPbits) nFeat

lemma segMatrix_block_length (varA : List (List Bool) → List (List Bool))
    (nNames nPbits nFeat : Nat) (offspring : List (List Bool)) (idx : Nat)
    (hElem : ∀ l i, ((varA l).getD i []).length = (l.getD i []).length)
    (hOff : ∀ ind ∈ offspring, ind.length = nNames * nPbits + nFeat)
    (hidx : idx < offspring.length) :
    (∀ j, j < nNames →
      (((segMatrix varA nNames nPbits offspring).getD j []).getD idx
        []).length = nPbits) ∧
    (((segMatrix varA nNames nPbits offspring).getD nNames []).getD idx
      []).length = nFeat := by
  constructor
  · intro j hj
    rw [segMatrix_getD_lt varA nNames nPbits offspring j hj]
    exact block_len_lt varA nNames nPbits nFeat offspring idx j hElem hOff
      hidx hj
  · rw [segMatrix_getD_last varA nNames nPbits offspring]
    exact block_len_last varA nNames nPbits nFeat offspring idx hElem hOff
      hidx

/-- Claim C6: when hyperparameters are configured, the segment-wise
variation of `_eaFunction` — `varAnd` applied independently to each
hyperparameter's `bitwidth`-wide segment and then to the feature segment,
followed by rebuilding via `zip` and `chain.from_iterable` — preserves the
number of offspring, preserves every offspring's total chromosome length
`hparam_bits + n_features`, rebuilds each chromosome as the concatenation
of its varied segments in their original order, and preserves the segment
boundaries exactly: re-slicing the rebuilt chromosome at the original
boundaries recovers exactly the varied segments. The hypotheses on `varA`
state that DEAP's `varAnd` (uniform crossover then bit-flip mutation, an
external dependency) preserves the population's size and each
individual's length, acting per-position without resizing. -/
theorem C6_segment_variation_layout
    (varA : List (List Bool) → List (List Bool))
    (nNames nPbits nFeat : Nat) (offspring : List (List Bool))
    (hLen : ∀ l, (varA l).length = l.length)
    (hElem : ∀ l i, ((varA l).getD i []).length = (l.getD i []).length)
    (hOff : ∀ ind ∈ offspring, ind.length = nNames * nPbits + nFeat) :
    (varySegmentwise varA nNames nPbits offspring).length =
      offspring.length ∧
    (∀ c ∈ varySegmentwise varA nNames nPbits offspring,
      c.length = nNames * nPbits + nFeat) ∧
    (∀ idx, idx < offspring.length →
      (varySegmentwise varA nNames nPbits offspring).getD idx [] =
        ((segMatrix varA nNames nPbits offspring).map
          (fun g => g.getD idx [])).flatten) ∧
    (∀ idx, idx < offspring.length → ∀ j, j < nNames →
      (((varySegmentwise varA nNames nPbits offspring).getD idx []).drop
          (j * nPbits)).take nPbits =
        ((segMatrix varA nNames nPbits offspring).getD j []).getD idx []) ∧
    (∀ idx, idx < offspring.length →
      ((varySegmentwise varA nNames nPbits offspring).getD idx []).drop
          (nNames * nPbits) =
        ((segMatrix varA nNames nPbits offspring).getD nNames []).getD idx
          []) := by
  have hzl := pyZipLen_segMatrix varA nNames nPbits offspring hLen
  have hsmLen : (segMatrix varA nNames nPbits offspring).length =
      nNames + 1 := by simp [segMatrix]
  refine ⟨?_, ?_, ?_, ?_, ?_⟩
  · simp only [varySegmentwise, pyZip, List.length_map, List.length_range]
    exact hzl
  · intro c hc
    rcases List.mem_map.mp hc with ⟨row, hrowMem, rfl⟩
    unfold pyZip at hrowMem
    rcases List.mem_map.mp hrowMem with ⟨i, hiMem, rfl⟩
    have hi : i < offspring.length := by
      have := List.mem_range.mp hiMem
      rw [hzl] at this
      exact this
    unfold segMatrix
    rw [List.map_append, List.flatten_append, List.length_append]
    have hA : ((((List.range nNames).map fun j => varA (offspring.map
        fun ind => (ind.drop (j * nPbits)).take nPbits)).map
          fun g => g.getD i []).flatten).length = nNames * nPbits := by
      have hmem : ∀ x ∈ ((List.range nNames).map fun j =>
          varA (offspring.map fun ind =>
            (ind.drop (j * nPbits)).take nPbits)).map (fun g => g.getD i []),
          x.length = nPbits := by
        intro x hx
        rcases List.mem_map.mp hx with ⟨g, hgMem, rfl⟩
        rcases List.mem_map.mp hgMem with ⟨j, hjMem, rfl⟩
        have hj : j < nNames := List.mem_range.mp hjMem
        exact block_len_lt varA nNames nPbits nFeat offspring i j hElem hOff
          hi hj
      rw [List.length_flatten, sum_map_length_const _ nPbits hmem]
      simp
    have hB : ((([varA (offspring.map fun ind =>
        ind.drop (nNames * nPbits))]).map fun g => g.getD i []).flatten).length
          = nFeat := by
      simp only [List.map_cons, List.map_nil, List.flatten_cons,
        List.flatten_nil, List.append_nil]
      exact block_len_last varA nNames nPbits nFeat offspring i hElem hOff hi
    rw [hA, hB]
  · intro idx hidx
    exact varySegmentwise_getD varA nNames nPbits offspring idx hLen hidx
  · intro idx hidx j hj
    have hblocks := segMatrix_block_length varA nNames nPbits nFeat offspring
      idx hElem hOff hidx
    rw [varySegmentwise_getD varA nNames nPbits offspring idx hLen hidx]
    have hfirst : ∀ i, i < j →
        ((((segMatrix varA nNames nPbits offspring).map
          (fun g => g.getD idx [])).getD i []).length) = nPbits := by
      intro i hij
      rw [nthD_map _ _ i [] [] (by rw [hsmLen]; omega)]
      exact hblocks.1 i (by omega)
    rw [join_drop_blocks j _ nPbits hfirst,
      drop_eq_nthD_cons _ j []
        (by rw [List.length_map, hsmLen]; omega),
      List.flatten_cons,
      nthD_map _ _ j [] [] (by rw [hsmLen]; omega),
      take_append_of_len _ _ nPbits (hblocks.1 j hj)]
  · intro idx hidx
    have hblocks := segMatrix_block_length varA nNames nPbits nFeat offspring
      idx hElem hOff hidx
    rw [varySegmentwise_getD varA nNames nPbits offspring idx hLen hidx]
    have hfirst : ∀ i, i < nNames →
        ((((segMatrix varA nNames nPbits offspring).map
          (fun g => g.getD idx [])).getD i []).length) = nPbits := by
      intro i hij
      rw [nthD_map _ _ i [] [] (by rw [hsmLen]; omega)]
      exact hblocks.1 i hij
    rw [join_drop_blocks nNames _ nPbits hfirst,
      drop_eq_nthD_cons _ nNames []
        (by rw [List.length_map, hsmLen]; omega),
      List.flatten_cons,
      nthD_map _ _ nNames [] [] (by rw [hsmLen]; omega)]
    have hnil : ((segMatrix varA nNames nPbits offspring).map
        (fun g => g.getD idx [])).drop (nNames + 1) = [] := by
      apply List.drop_eq_nil_of_le
      rw [List.length_map, hsmLen]
    rw [hnil]
    simp

theorem C6_segment_variation_layout_witness :
    (∀ l : List (List Bool), (id l).length = l.length) ∧
    (∀ ind ∈ [[true, false]], ind.length = 1 * 1 + 1) ∧
    (varySegmentwise id 1 1 [[true, false]]).length = 1 ∧
    (varySegmentwise id 1 1 [[true, false]]).getD 0 [] =
      ((segMatrix id 1 1 [[true, false]]).map (fun g => g.getD 0 [])).flatten :=
  ⟨fun _ => rfl, by decide, by
    have := (C6_segment_variation_layout id 1 1 1 [[true, false]]
      (fun _ => rfl) (fun _ _ => rfl) (by decide)).1
    simpa using this,
   (C6_segment_variation_layout id 1 1 1 [[true, false]]
      (fun _ => rfl) (fun _ _ => rfl) (by decide)).2.2.1 0 (by decide)⟩

/-- The final decode of the best chromosome's hyperparameter prefix in
`GeneticSelectionCV_mod._fit` (gscv.py lines 393-404): take
`hof[0][:hparam_bits]`, slice it per parameter, interpret each slice as
unsigned binary and linearly rescale it to `[min, max]` — the source
applies no rounding step here. -/
lemma range_one : List.range 1 = [0] := by decide

def bestParamsOf (hp : HParams) (gene : List Bool) : List (String × ℚ) :=
  let n := hp.bitwidth
  let binstr := gene.take (hp.names.length * n)
  (List.range hp.names.length).map fun j =>
    (hp.names.getD j "",
     decodeVal (hp.range.getD j (0, 0)).1 (hp.range.getD j (0, 0)).2 n
       ((binstr.drop (j * n)).take n))

lemma getAttr_setAttr_self (e : EstimatorState) (k : String) (v : ℚ) :
    getAttr (setAttr e k v) k = some v := by
  induction e with
  | nil => simp [setAttr, getAttr]
  | cons p rest ih =>
      by_cases h : p.1 = k
      · simp [setAttr, getAttr, h]
      · simp [setAttr, getAttr, h, ih]

lemma getAttr_setAttr_other (e : EstimatorState) (k k2 : String) (v : ℚ)
    (hne : k ≠ k2) :
    getAttr (setAttr e k v) k2 = getAttr e k2 := by
  induction e with
  | nil => simp [setAttr, getAttr, hne]
  | cons p rest ih =>
      by_cases h : p.1 = k
      · simp [setAttr, getAttr, h, hne]
      · simp [setAttr, getAttr, h, ih]

lemma applyHParams_single (name : String) (pmin pmax : ℚ) (n : Nat)
    (e0 : EstimatorState) (ind : List Bool) :
    (applyHParams ⟨[name], n, [(pmin, pmax)]⟩ e0 ind).1 =
      setAttr e0 name
        (if name = "max_depth" then
          ((pyRound (decodeVal pmin pmax n (ind.take n)) : ℤ) : ℚ)
        else decodeVal pmin pmax n (ind.take n)) := by
  simp [applyHParams, applyHParamStep, range_one]

/-- Claim C8, counterexample: with the hyperparameter spec
`names = ['max_depth'], bitwidth = 2, range = [(0, 10)]`, the chromosome
prefix `01` decodes to `1`, rescales to `10/3`, and the fitness-evaluation
decode stores the rounded value `3` on the estimator — but the final
decode of the best chromosome (`_fit` lines 395-404) yields the unrounded
`10/3 ≠ 3`, so the claimed rounding does not apply at the final decode. -/
theorem C8_final_decode_counterexample :
    bestParamsOf ⟨["max_depth"], 2, [(0, 10)]⟩ [false, true] =
      [("max_depth", 10 / 3)] ∧
    getAttr (applyHParams ⟨["max_depth"], 2, [(0, 10)]⟩ [] [false, true]).1
      "max_depth" = some 3 ∧
    ((10 : ℚ) / 3) ≠ 3 := by
  have hdec : decodeVal 0 10 2 ([false, true].take 2) = 10 / 3 := by
    norm_num [decodeVal, binToNat]
  have hdec' : decodeVal 0 10 2 [false, true] = 10 / 3 := by
    norm_num [decodeVal, binToNat]
  have hfloor : ⌊(10 : ℚ) / 3⌋ = 3 := by
    rw [Int.floor_eq_iff]
    norm_num
  have hround : pyRound (10 / 3) = 3 := by
    norm_num [pyRound, hfloor]
  refine ⟨?_, ?_, by norm_num⟩
  · simp [bestParamsOf, range_one, hdec']
  · rw [applyHParams_single, if_pos rfl, hdec, hround,
      getAttr_setAttr_self]
    norm_num

/-- Claim C8 (amended): in the fitness-evaluation decode, the value of a
hyperparameter is the linear rescaling of the segment's unsigned binary
value from `[0, 2^bitwidth - 1]` to `[min, max]`, rounded to the nearest
integer exactly when the parameter's name is in the hardcoded integral set
`['max_depth']`; the final decode of the best chromosome into
`best_params_` applies no rounding for any parameter and returns the raw
rescaled value. -/
theorem C8_integral_rounding_eval_only (pmin pmax : ℚ) (n : Nat)
    (e0 : EstimatorState) (ind gene : List Bool) (name : String) :
    getAttr (applyHParams ⟨["max_depth"], n, [(pmin, pmax)]⟩ e0 ind).1
        "max_depth" =
      some ((pyRound (decodeVal pmin pmax n (ind.take n)) : ℤ) : ℚ) ∧
    (name ≠ "max_depth" →
      getAttr (applyHParams ⟨[name], n, [(pmin, pmax)]⟩ e0 ind).1 name =
        some (decodeVal pmin pmax n (ind.take n))) ∧
    bestParamsOf ⟨[name], n, [(pmin, pmax)]⟩ gene =
      [(name, decodeVal pmin pmax n (gene.take n))] := by
  refine ⟨?_, ?_, ?_⟩
  · rw [applyHParams_single, if_pos rfl, getAttr_setAttr_self]
  · intro hname
    rw [applyHParams_single, if_neg hname, getAttr_setAttr_self]
  · simp [bestParamsOf, range_one, List.take_take]

theorem C8_integral_rounding_eval_only_witness :
    ("criterion" : String) ≠ "max_depth" ∧
    getAttr (applyHParams ⟨["criterion"], 1, [(0, 1)]⟩ [] [true]).1
        "criterion" = some (decodeVal 0 1 1 ([true].take 1)) :=
  ⟨by decide,
   (C8_integral_rounding_eval_only 0 1 1 [] [true] [] "criterion").2.1
     (by decide)⟩

lemma evalCore_est (maxF : Nat) (caching : Bool)
    (cvScore : EstimatorState → List Bool → List ℚ) (stdFn : List ℚ → ℚ)
    (est : EstimatorState) (c0 : Cache) (ind : List Bool) :
    (evalCore maxF caching cvScore stdFn est c0 ind).est = est := by
  unfold evalCore
  by_cases hs : countOnes ind = 0 ∨ maxF < countOnes ind
  · simp [hs]
  · simp only [hs, if_false]
    cases hl : (if caching then cacheLookup c0 ind else none) with
    | none => simp [hl]
    | some ms => simp [hl]

lemma foldl_applyHParamStep_not_mem (hp : HParams) (ind : List Bool)
    (name : String) (hname : name ∉ hp.names) :
    ∀ (js : List Nat) (e : EstimatorState),
      (∀ j ∈ js, j < hp.names.length) →
      getAttr (js.foldl (applyHParamStep hp ind) e) name = getAttr e name := by
  intro js
  induction js with
  | nil => intro e _; rfl
  | cons j js ih =>
      intro e hjs
      have hj : j < hp.names.length := hjs j (List.mem_cons_self j js)
      have hkey : hp.names.getD j "" ∈ hp.names :=
        nthD_mem hp.names j "" hj
      have hne : hp.names.getD j "" ≠ name := by
        intro he
        exact hname (he ▸ hkey)
      show getAttr (js.foldl (applyHParamStep hp ind)
        (applyHParamStep hp ind e j)) name = getAttr e name
      rw [ih (applyHParamStep hp ind e j)
        (fun j2 hj2 => hjs j2 (List.mem_cons_of_mem j hj2))]
      unfold applyHParamStep
      exact getAttr_setAttr_other e _ name _ hne

lemma getAttr_applyHParams_not_mem (hp : HParams) (e0 : EstimatorState)
    (ind : List Bool) (name : String) (hname : name ∉ hp.names) :
    getAttr (applyHParams hp e0 ind).1 name = getAttr e0 name := by
  unfold applyHParams
  exact foldl_applyHParamStep_not_mem hp ind name hname
    (List.range hp.names.length) e0 (fun j hj => List.mem_range.mp hj)

/-- Claim C9, counterexample: the estimator is cloned once per `_fit`
(gscv.py line 345) and that single object is passed to every evaluation
(line 353); with the spec `names = ['max_depth'], bitwidth = 2,
range = [(0, 10)]` and chromosome `11` ++ `1`, the evaluation's `setattr`
overwrites `max_depth` from `5` to the decoded `10` on the shared object,
and the mutated state survives the call — the side effect is not confined
to a per-evaluation copy, so a model object shared with other evaluations
of the same run is mutated. -/
theorem C9_shared_clone_counterexample :
    (evalFunction (some ⟨["max_depth"], 2, [(0, 10)]⟩) 1 false
        (fun _ _ => [1]) (fun _ => 0) [("max_depth", 5)] []
        [true, true, true]).est ≠ [("max_depth", 5)] ∧
    getAttr (evalFunction (some ⟨["max_depth"], 2, [(0, 10)]⟩) 1 false
        (fun _ _ => [1]) (fun _ => 0) [("max_depth", 5)] []
        [true, true, true]).est "max_depth" = some 10 := by
  have hdec : decodeVal 0 10 2 ([true, true, true].take 2) = 10 := by
    norm_num [decodeVal, binToNat]
  have hround : pyRound 10 = 10 := by norm_num [pyRound]
  have hest : (evalFunction (some ⟨["max_depth"], 2, [(0, 10)]⟩) 1 false
      (fun _ _ => [1]) (fun _ => 0) [("max_depth", 5)] []
      [true, true, true]).est = [("max_depth", (10 : ℚ))] := by
    rw [evalFunction_eq_core]
    rw [evalCore_est]
    show (applyHParams ⟨["max_depth"], 2, [(0, 10)]⟩ [("max_depth", 5)]
      [true, true, true]).1 = [("max_depth", (10 : ℚ))]
    rw [applyHParams_single, if_pos rfl, hdec, hround]
    simp [setAttr]
  rw [hest]
  constructor
  · intro h
    have := List.head_eq_of_cons_eq h
    have h2 : (10 : ℚ) = 5 := congrArg Prod.snd this
    norm_num at h2
  · simp [getAttr]

/-- Claim C9 (amended): the predictive model is cloned once per fit
invocation, not once per evaluation; each fitness evaluation with
hyperparameters configured applies the decoded values by in-place
attribute assignment to that single shared clone, and the mutation
persists after the call (the estimator state it hands back to the run is
the hyperparameter-mutated shared state, seen by subsequent evaluations);
only attributes named in the hyperparameter spec are modified, and with no
hyperparameters configured the estimator is untouched. -/
theorem C9_shared_estimator_mutation (hp : HParams) (maxF : Nat)
    (caching : Bool) (cvScore : EstimatorState → List Bool → List ℚ)
    (stdFn : List ℚ → ℚ) (e0 : EstimatorState) (c0 : Cache)
    (i0 : List Bool) :
    (evalFunction (some hp) maxF caching cvScore stdFn e0 c0 i0).est =
      (applyHParams hp e0 i0).1 ∧
    (∀ name, name ∉ hp.names →
      getAttr (evalFunction (some hp) maxF caching cvScore stdFn e0 c0
        i0).est name = getAttr e0 name) ∧
    (evalFunction none maxF caching cvScore stdFn e0 c0 i0).est = e0 := by
  have h1 : (evalFunction (some hp) maxF caching cvScore stdFn e0 c0
      i0).est = (applyHParams hp e0 i0).1 := by
    rw [evalFunction_eq_core, evalCore_est]
    rfl
  refine ⟨h1, ?_, ?_⟩
  · intro name hname
    rw [h1]
    exact getAttr_applyHParams_not_mem hp e0 i0 name hname
  · rw [evalFunction_eq_core, evalCore_est]
    rfl

theorem C9_shared_estimator_mutation_witness :
    ("criterion" : String) ∉ (⟨["max_depth"], 2, [(0, 10)]⟩ : HParams).names ∧
    getAttr (evalFunction (some ⟨["max_depth"], 2, [(0, 10)]⟩) 1 false
        (fun _ _ => [1]) (fun _ => 0) [("criterion", 7)] []
        [true, true, true]).est "criterion" =
      getAttr [("criterion", 7)] "criterion" :=
  ⟨by decide,
   (C9_shared_estimator_mutation ⟨["max_depth"], 2, [(0, 10)]⟩ 1 false
      (fun _ _ => [1]) (fun _ => 0) [("criterion", 7)] []
      [true, true, true]).2.1 "criterion" (by decide)⟩

lemma cacheLookup_evalFunction_preserved (hp : Option HParams) (maxF : Nat)
    (caching : Bool) (cvScore : EstimatorState → List Bool → List ℚ)
    (stdFn : List ℚ → ℚ) (e0 : EstimatorState) (c0 : Cache)
    (i0 : List Bool) (k : List Bool) (v : ℚ × ℚ)
    (h : cacheLookup c0 k = some v) :
    cacheLookup (evalFunction hp maxF caching cvScore stdFn e0 c0 i0).cache
      k = some v := by
  rw [evalFunction_eq_core]
  unfold evalCore
  by_cases hs : countOnes (featureSeg hp i0) = 0 ∨
      maxF < countOnes (featureSeg hp i0)
  · simp only [hs, if_true]
    exact h
  · simp only [hs, if_false]
    by_cases hc : caching
    · subst hc
      cases hl : cacheLookup c0 (featureSeg hp i0) with
      | some ms =>
          simp only [if_true, hl]
          exact h
      | none =>
          simp only [if_true, hl]
          have hne : featureSeg hp i0 ≠ k := by
            intro he
            rw [he, h] at hl
            exact Option.noConfusion hl
          rw [cacheLookup_cacheInsert_other c0 (featureSeg hp i0) k _ hne]
          exact h
    · have hcf : caching = false := Bool.eq_false_iff.mpr hc
      subst hcf
      simp only [Bool.false_eq_true, if_false]
      exact h

/-- The state of a `GeneticSelectionCV_mod` object as far as the score
cache is concerned: the `caching` flag and the `scores_cache` dict, both
set in `__init__` (gscv.py lines 295-296). -/
structure GSCVModel where
  caching : Bool
  scores_cache : Cache
deriving DecidableEq

/-- `__init__` (gscv.py line 296): `self.scores_cache = {}` — the cache is
created empty once, at object construction. -/
def gscvInit (caching : Bool) : GSCVModel := ⟨caching, []⟩

/-- The sequence of fitness evaluations performed during one `_fit` run:
every evaluation receives the shared estimator clone and the object's
`scores_cache` (gscv.py lines 353-356) and mutates them in place, so both
are threaded through the fold; the scoring-collaborator invocations are
counted. -/
def fitEvals (hp : Option HParams) (maxF : Nat) (caching : Bool)
    (cvScore : EstimatorState → List Bool → List ℚ) (stdFn : List ℚ → ℚ) :
    Cache × EstimatorState × Nat → List (List Bool) →
      Cache × EstimatorState × Nat
  | acc, [] => acc
  | acc, ind :: rest =>
      let r := evalFunction hp maxF caching cvScore stdFn acc.2.1 acc.1 ind
      fitEvals hp maxF caching cvScore stdFn
        (r.cache, r.est, acc.2.2 + r.cvCalls) rest

/-- `_fit` as it affects the object's cache (gscv.py lines 345, 353-356):
the estimator is cloned once from the user's template, and the object's
`scores_cache` — NOT reset by `_fit` — is handed to the evaluator, mutated
in place across the run's evaluations (`inds` being the chromosomes the
run evaluates), and therefore retained on the object afterwards. Returns
the updated object state and the number of scoring-collaborator calls the
run made. -/
def gscvFit (hp : Option HParams) (maxF : Nat)
    (cvScore : EstimatorState → List Bool → List ℚ) (stdFn : List ℚ → ℚ)
    (estTemplate : EstimatorState) (g : GSCVModel)
    (inds : List (List Bool)) : GSCVModel × Nat :=
  let t := fitEvals hp maxF g.caching cvScore stdFn
    (g.scores_cache, estTemplate, 0) inds
  (⟨g.caching, t.1⟩, t.2.2)

lemma fitEvals_cache_preserved (hp : Option HParams) (maxF : Nat)
    (caching : Bool) (cvScore : EstimatorState → List Bool → List ℚ)
    (stdFn : List ℚ → ℚ) :
    ∀ (inds : List (List Bool)) (c : Cache) (e : EstimatorState) (n : Nat)
      (k : List Bool) (v : ℚ × ℚ), cacheLookup c k = some v →
      cacheLookup (fitEvals hp maxF caching cvScore stdFn (c, e, n)
        inds).1 k = some v := by
  intro inds
  induction inds with
  | nil => intro c e n k v h; exact h
  | cons ind rest ih =>
      intro c e n k v h
      show cacheLookup (fitEvals hp maxF caching cvScore stdFn
        ((evalFunction hp maxF caching cvScore stdFn e c ind).cache,
         (evalFunction hp maxF caching cvScore stdFn e c ind).est,
         n + (evalFunction hp maxF caching cvScore stdFn e c
           ind).cvCalls) rest).1 k = some v
      exact ih _ _ _ k v
        (cacheLookup_evalFunction_preserved hp maxF caching cvScore stdFn
          e c ind k v h)

/-- Claim C10, counterexample: construct the object with caching enabled,
run one fit that evaluates the feasible chromosome `10` (the run stores a
cache entry), then run a second fit on the same object evaluating the same
chromosome. After the first run the object's cache is non-empty — so the
second fit-style invocation does not start with an empty cache — and the
second run's scoring-collaborator call count is 0: the entry written by
run one is observed by run two. -/
theorem C10_cache_fresh_counterexample :
    ((gscvFit none 2 (fun _ _ => [1, 1]) (fun _ => 0) [] (gscvInit true)
        [[true, false]]).1).scores_cache ≠ [] ∧
    (gscvFit none 2 (fun _ _ => [1, 1]) (fun _ => 0) []
        ((gscvFit none 2 (fun _ _ => [1, 1]) (fun _ => 0) [] (gscvInit true)
          [[true, false]]).1) [[true, false]]).2 = 0 := by
  have h1 : countOnes (featureSeg none [true, false]) ≠ 0 := by decide
  have h2 : ¬ 2 < countOnes (featureSeg none [true, false]) := by decide
  have hmiss : cacheLookup [] (featureSeg none [true, false]) = none := rfl
  have hr1 : evalFunction none 2 true (fun _ _ => [1, 1]) (fun _ => 0) []
      [] [true, false] =
      ⟨(listMean [1, 1], (countOnes (featureSeg none [true, false]) : ℚ), 0),
        cacheInsert [] (featureSeg none [true, false]) (listMean [1, 1], 0),
        [], 1⟩ := by
    rw [evalFunction_eq_core, evalCore_miss 2 _ _ _ _ _ h1 h2 hmiss]
    rfl
  have hfit1 : (gscvFit none 2 (fun _ _ => [1, 1]) (fun _ => 0) []
      (gscvInit true) [[true, false]]).1 =
      ⟨true, cacheInsert [] (featureSeg none [true, false])
        (listMean [1, 1], 0)⟩ := by
    simp only [gscvFit, gscvInit, fitEvals, hr1]
  constructor
  · rw [hfit1]
    simp [cacheInsert, featureSeg]
  · rw [hfit1]
    have hhit : cacheLookup (cacheInsert [] (featureSeg none [true, false])
        (listMean [1, 1], 0)) (featureSeg none [true, false]) =
        some (listMean [1, 1], 0) :=
      cacheLookup_cacheInsert_self _ _ _
    have hr2 : evalFunction none 2 true (fun _ _ => [1, 1]) (fun _ => 0) []
        (cacheInsert [] (featureSeg none [true, false]) (listMean [1, 1], 0))
        [true, false] =
        ⟨(listMean [1, 1], (countOnes (featureSeg none [true, false]) : ℚ),
            0),
          cacheInsert [] (featureSeg none [true, false]) (listMean [1, 1], 0),
          [], 0⟩ := by
      rw [evalFunction_eq_core, evalCore_hit 2 _ _ _ _ _ _ _ h1 h2 hhit]
      rfl
    simp only [gscvFit, fitEvals, hr2]

/-- Claim C10 (amended): the cache's lifetime is the configured object's,
not a single run's: it is created empty at object construction
(`__init__`), while a fit-style invocation starts from whatever cache the
object currently holds, threads it through all of the run's evaluations,
stores the final cache back on the object, and never drops an entry —
so every entry present before a run, in particular one written by a
previous run on the same object, is still present and observable
afterwards. -/
theorem C10_cache_object_lifetime (caching : Bool) (hp : Option HParams)
    (maxF : Nat) (cvScore : EstimatorState → List Bool → List ℚ)
    (stdFn : List ℚ → ℚ) (estT : EstimatorState) (g : GSCVModel)
    (inds : List (List Bool)) (k : List Bool) (v : ℚ × ℚ) :
    (gscvInit caching).scores_cache = [] ∧
    ((gscvFit hp maxF cvScore stdFn estT g inds).1).scores_cache =
      (fitEvals hp maxF g.caching cvScore stdFn
        (g.scores_cache, estT, 0) inds).1 ∧
    (cacheLookup g.scores_cache k = some v →
      cacheLookup ((gscvFit hp maxF cvScore stdFn estT g
        inds).1).scores_cache k = some v) := by
  refine ⟨rfl, rfl, ?_⟩
  intro h
  exact fitEvals_cache_preserved hp maxF g.caching cvScore stdFn inds
    g.scores_cache estT 0 k v h

theorem C10_cache_object_lifetime_witness :
    cacheLookup (⟨true, [([true], (1, 0))]⟩ : GSCVModel).scores_cache [true] =
      some (1, 0) ∧
    cacheLookup ((gscvFit none 1 (fun _ _ => [1]) (fun _ => 0) []
        ⟨true, [([true], (1, 0))]⟩ []).1).scores_cache [true] =
      some (1, 0) :=
  ⟨rfl,
   (C10_cache_object_lifetime true none 1 (fun _ _ => [1]) (fun _ => 0) []
      ⟨true, [([true], (1, 0))]⟩ [] [true] (1, 0)).2.2 rfl⟩
